import Mathlib

/-!
Verification of the calendar free/busy engine in `src/calendar_util.py`.

The engine computes, for the current day's working-hours window, the free
gaps between the busy intervals of an ICS calendar and a single "Deep work"
suggestion.  We embed the engine shallowly:

* Time is modelled in integer seconds.  A Python `datetime.date` value is a
  day number, a naive `datetime` is a local wall-clock time in seconds, an
  aware `datetime` is an absolute instant in seconds (UTC).  The target zone
  is a fixed UTC offset in seconds (`America/Mexico_City` is UTC-6 with no
  DST since 2022), so converting an aware instant to the target zone's wall
  clock is adding the offset.
* The result of `_load_calendar` (which performs file IO and ICS parsing)
  and the component list produced by the `recurring_ical_events` library or
  the `cal.walk("VEVENT")` fallback are inputs of the model: the model's
  `getFreeBlocks` receives an `Except PyErr (List RawEvent)`, everything
  after that point is translated line by line from the source.
* Fallible Python operations are modelled with `Except`.  In particular,
  Python raises `TypeError` when ordering a naive `datetime` against an
  aware one, or a `date` against a `datetime`; `pyLt` models this.
-/

namespace MorningBrief

/-- Model of a value taken from a DTSTART/DTEND field: a Python `date`
(day number), a naive `datetime` (local wall clock, seconds), or an aware
`datetime` (absolute instant, seconds). -/
inductive PyDT where
  | date (day : Int)
  | naive (wall : Int)
  | aware (instant : Int)
deriving DecidableEq, Repr

/-- One raw VEVENT component (`comp` in `_expand_events_for_range`):
optional DTSTART and DTEND values and a summary text. -/
structure RawEvent where
  dtstart : Option PyDT
  dtend : Option PyDT
  summary : String
deriving DecidableEq, Repr

/-- One expanded occurrence dict `{'start','end','summary','all_day'}`. -/
structure Occ where
  start : PyDT
  end_ : PyDT
  summary : String
  allDay : Bool
deriving DecidableEq, Repr

/-- A free block `{'start','end','minutes'}`; `start`/`end` are the naive
local wall clock left after `.replace(tzinfo=None)`, in seconds. -/
structure Block where
  start : Int
  end_ : Int
  minutes : Int
deriving DecidableEq, Repr

/-- A suggestion `{'type','start','end','minutes'}`. -/
structure Suggestion where
  type : String
  start : Int
  end_ : Int
  minutes : Int
deriving DecidableEq, Repr

/-- The Python exceptions that can escape the engine: `FileNotFoundError`
from `_load_calendar`, a parse error from `Calendar.from_ical`, and
`TypeError` from ordering incompatible datetime values. -/
inductive PyErr where
  | fileNotFound
  | parseError
  | typeError
deriving DecidableEq, Repr

/-- `_to_local_dt(val, tz, is_end)`: result as local wall-clock seconds in
the target zone.  An aware datetime is converted preserving the instant
(`astimezone`), a naive one keeps its wall clock (`replace(tzinfo=tz)`),
a date becomes local midnight of that day, plus one day when `is_end`. -/
def toLocalDt (val : PyDT) (tz : Int) (isEnd : Bool) : Int :=
  match val with
  | .aware i => i + tz
  | .naive w => w
  | .date d => if isEnd then (d + 1) * 86400 else d * 86400

/-- Python `<` on datetime-like values.  Ordering a naive datetime against
an aware one, or a `date` against a `datetime`, raises `TypeError`. -/
def pyLt : PyDT → PyDT → Except PyErr Bool
  | .date a, .date b => .ok (decide (a < b))
  | .naive a, .naive b => .ok (decide (a < b))
  | .aware a, .aware b => .ok (decide (a < b))
  | _, _ => .error .typeError

/-- Lines 109-112 of `_expand_events_for_range`: a `date` value is replaced
by a naive datetime at midnight of that day; datetimes are kept. -/
def dateToNaive : PyDT → PyDT
  | .date d => .naive (d * 86400)
  | v => v

/-- Lines 90-93: the raw end is DTEND if present, otherwise start + 1 hour
for a datetime start, otherwise the naive datetime at 01:00 of the start
date (`datetime(y, m, d, 1, 0)`). -/
def rawEndOf (rawStart : PyDT) (dtend : Option PyDT) : PyDT :=
  match dtend with
  | some v => v
  | none =>
    match rawStart with
    | .naive w => .naive (w + 3600)
    | .aware i => .aware (i + 3600)
    | .date d => .naive (d * 86400 + 3600)

/-- Whether a raw start value is a pure date (all-day flag, line 95). -/
def PyDT.isDate : PyDT → Bool
  | .date _ => true
  | _ => false

/-- Lines 83-102: build the occurrence list, skipping components without a
DTSTART and defaulting a missing DTEND. -/
def buildEvents (comps : List RawEvent) : List Occ :=
  comps.filterMap fun c =>
    match c.dtstart with
    | none => none
    | some rs =>
      some { start := rs, end_ := rawEndOf rs c.dtend,
             summary := c.summary, allDay := rs.isDate }

/-- Lines 105-116: keep only events whose (date-converted) raw interval
satisfies `s < rng_end and e > rng_start`; the comparisons are Python
datetime comparisons and may raise `TypeError`.  `rngStartI`/`rngEndI` are
the absolute instants of the aware range bounds. -/
def filterOverlap (rngStartI rngEndI : Int) : List Occ → Except PyErr (List Occ)
  | [] => .ok []
  | ev :: rest =>
    let s := dateToNaive ev.start
    let e := dateToNaive ev.end_
    match pyLt s (.aware rngEndI) with
    | .error err => .error err
    | .ok false => filterOverlap rngStartI rngEndI rest
    | .ok true =>
      match pyLt (.aware rngStartI) e with
      | .error err => .error err
      | .ok false => filterOverlap rngStartI rngEndI rest
      | .ok true =>
        match filterOverlap rngStartI rngEndI rest with
        | .error err => .error err
        | .ok tail => .ok ({ ev with start := s, end_ := e } :: tail)

/-- `_expand_events_for_range` given the component list `comps` (the result
of `recurring_ical_events.of(cal).between(...)` or of the
`cal.walk("VEVENT")` fallback, both external inputs of the model). -/
def expandEventsForRange (comps : List RawEvent) (rngStartI rngEndI : Int) :
    Except PyErr (List Occ) :=
  filterOverlap rngStartI rngEndI (buildEvents comps)

/-- `_clip_interval`: intersect `[s, e)` with `[ws, we)`, `none` if empty. -/
def clipInterval (s e ws we : Int) : Option (Int × Int) :=
  if max s ws < min e we then some (max s ws, min e we) else none

/-- Lines 153-155: clamp a zero- or negative-duration end to start + 1 min. -/
def clampEnd (s e : Int) : Int :=
  if e ≤ s then s + 60 else e

/-- Lines 148-159: normalize each occurrence to local wall-clock seconds,
clamp malformed ends, clip to the window. -/
def busyOf (occs : List Occ) (tz ws we : Int) : List (Int × Int) :=
  occs.filterMap fun ev =>
    let sL := toLocalDt ev.start tz false
    let eL := clampEnd sL (toLocalDt ev.end_ tz true)
    clipInterval sL eL ws we

/-- Sorting key of `intervals.sort(key=lambda x: x[0])`. -/
def StartLE (a b : Int × Int) : Prop := a.1 ≤ b.1

instance : DecidableRel StartLE := fun a b => Int.decLe a.1 b.1

instance : IsTotal (Int × Int) StartLE := ⟨fun a b => Int.le_total a.1 b.1⟩

instance : IsTrans (Int × Int) StartLE := ⟨fun _ _ _ h h' => le_trans h h'⟩

/-- Python's `list.sort(key=lambda x: x[0])` is a stable sort by the first
component; any stable sort by the same key produces the same list, so we
model it with insertion sort. -/
def sortByStart (l : List (Int × Int)) : List (Int × Int) :=
  List.insertionSort StartLE l

/-- The loop of `_merge_intervals`: `c` is the running interval
(`merged[-1]`), extended while the next start is `<=` its end. -/
def mergeGo (c : Int × Int) : List (Int × Int) → List (Int × Int)
  | [] => [c]
  | q :: tl =>
    if q.1 ≤ c.2 then mergeGo (c.1, max c.2 q.2) tl
    else c :: mergeGo q tl

/-- `_merge_intervals`: sort by start, then a single left-to-right sweep. -/
def mergeIntervals (l : List (Int × Int)) : List (Int × Int) :=
  match sortByStart l with
  | [] => []
  | x :: xs => mergeGo x xs

/-- Lines 163-171: the cursor walk emitting free gaps, including the final
trailing gap `[cur, win_end)`. -/
def gapsGo (we cur : Int) : List (Int × Int) → List (Int × Int)
  | [] => if cur < we then [(cur, we)] else []
  | q :: tl =>
    if cur < q.1 then (cur, q.1) :: gapsGo we (max cur q.2) tl
    else gapsGo we (max cur q.2) tl

/-- Lines 173-182: keep gaps of at least `min_block` whole minutes; the
minute count is the floor of the duration in minutes. -/
def blocksOf (free : List (Int × Int)) (minBlock : Int) : List Block :=
  free.filterMap fun p =>
    if minBlock ≤ (p.2 - p.1) / 60 then some ⟨p.1, p.2, (p.2 - p.1) / 60⟩
    else none

/-- Lines 184-194: the first block of at least `deep_block` minutes becomes
the single "Deep work" suggestion (the loop breaks after appending). -/
def suggestLoop (deepBlock : Int) : List Block → List Suggestion
  | [] => []
  | b :: tl =>
    if deepBlock ≤ b.minutes then [⟨"Deep work", b.start, b.end_, b.minutes⟩]
    else suggestLoop deepBlock tl

/-- Body of `get_free_blocks` from line 141 on, given the loaded component
list.  `tz` is the offset of `tz_name`, `today` the day number of
`datetime.now(tz).date()`.  The window bounds are aware datetimes whose
local wall clocks are `day_start_hour:00` and `day_end_hour:00`. -/
def getFreeBlocksOk (comps : List RawEvent)
    (minBlock deepBlock dayStartHour dayEndHour tz today : Int) :
    Except PyErr (List Block × List Suggestion) :=
  let ws := today * 86400 + dayStartHour * 3600
  let we := today * 86400 + dayEndHour * 3600
  match expandEventsForRange comps (ws - tz) (we - tz) with
  | .error e => .error e
  | .ok occs =>
    let blocks := blocksOf (gapsGo we ws (mergeIntervals (busyOf occs tz ws we))) minBlock
    .ok (blocks, suggestLoop deepBlock blocks)

/-- `get_free_blocks`: the calendar is loaded by `_load_calendar` with no
surrounding try/except, so a load or parse failure propagates; otherwise
the body runs on the loaded component list. -/
def getFreeBlocks (loaded : Except PyErr (List RawEvent))
    (minBlock deepBlock dayStartHour dayEndHour tz today : Int) :
    Except PyErr (List Block × List Suggestion) :=
  match loaded with
  | .error e => .error e
  | .ok comps => getFreeBlocksOk comps minBlock deepBlock dayStartHour dayEndHour tz today

/-- The set of instants covered by a list of half-open intervals. -/
def coveredF (l : List (Int × Int)) : Finset Int :=
  l.foldr (fun p acc => Finset.Ico p.1 p.2 ∪ acc) ∅

/-- Strict separation of two intervals: the first ends before the second
starts (the Busy Set invariant, and disjointness of gaps). -/
def Sep (a b : Int × Int) : Prop := a.2 < b.1

instance : DecidableRel Sep := fun a b => Int.decLt a.2 b.1

instance {ε α : Type} [DecidableEq ε] [DecidableEq α] : DecidableEq (Except ε α) :=
  fun x y =>
    match x, y with
    | .error a, .error b =>
      if h : a = b then .isTrue (by rw [h]) else .isFalse (by intro hh; cases hh; exact h rfl)
    | .ok a, .ok b =>
      if h : a = b then .isTrue (by rw [h]) else .isFalse (by intro hh; cases hh; exact h rfl)
    | .error _, .ok _ => .isFalse (fun hh => nomatch hh)
    | .ok _, .error _ => .isFalse (fun hh => nomatch hh)


/-- Claim C1, counterexample: a `FileNotFoundError` from `_load_calendar`
propagates out of `get_free_blocks` unchanged; the result is not the
whole-window-free fallback (the full 08:00-21:00 window as one 780-minute
gap) that the claim promises. -/
theorem loadFailure_cex :
    getFreeBlocks (.error .fileNotFound) 60 90 8 21 (-21600) 20000 =
      .error .fileNotFound ∧
    getFreeBlocks (.error .fileNotFound) 60 90 8 21 (-21600) 20000 ≠
      .ok ([⟨1728028800, 1728075600, 780⟩],
           [⟨"Deep work", 1728028800, 1728075600, 780⟩]) :=
  ⟨rfl, fun h => nomatch h⟩

/-- Claim C1, amended: `get_free_blocks` calls `_load_calendar` with no
surrounding try/except, so a loader or parse failure is raised to the
caller unchanged; no whole-window-free fallback is produced. -/
theorem loadFailure_propagates (e : PyErr)
    (minBlock deepBlock dayStartHour dayEndHour tz today : Int) :
    getFreeBlocks (.error e) minBlock deepBlock dayStartHour dayEndHour tz today =
      .error e := rfl

/-- Claim C2, counterexample: with window 08:00-21:00, one busy interval
10:00-11:00 (an aware event, day 20000, zone UTC-6), `min_block = 60` and
`deep_block = 90`, the result is not "gaps [08:00-10:00, 11:00-21:00] with
the suggestion Deep work 11:00-21:00": the suggestion the code emits is for
the first qualifying gap 08:00-10:00, not for 11:00-21:00. -/
theorem scenario_cex :
    getFreeBlocks
      (.ok [⟨some (.aware 1728057600), some (.aware 1728061200), "busy"⟩])
      60 90 8 21 (-21600) 20000 ≠
    .ok ([⟨1728028800, 1728036000, 120⟩, ⟨1728039600, 1728075600, 600⟩],
         [⟨"Deep work", 1728039600, 1728075600, 600⟩]) := by decide

/-- Claim C2, amended: in that scenario the gaps are 08:00-10:00 (120
minutes) and 11:00-21:00 (600 minutes), and the single Deep work
suggestion is for the first gap of at least 90 minutes, namely
08:00-10:00 (120 minutes). -/
theorem scenario_eval :
    getFreeBlocks
      (.ok [⟨some (.aware 1728057600), some (.aware 1728061200), "busy"⟩])
      60 90 8 21 (-21600) 20000 =
    .ok ([⟨1728028800, 1728036000, 120⟩, ⟨1728039600, 1728075600, 600⟩],
         [⟨"Deep work", 1728028800, 1728036000, 120⟩]) := rfl

/-- Claim C5: if an occurrence's normalized end is at most its normalized
start, the clamp sets the end to start + 1 minute: the busy interval handed
downstream has positive duration, exactly 60 seconds. -/
theorem clamp_one_minute (ev : Occ) (tz : Int)
    (h : toLocalDt ev.end_ tz true ≤ toLocalDt ev.start tz false) :
    clampEnd (toLocalDt ev.start tz false) (toLocalDt ev.end_ tz true) =
      toLocalDt ev.start tz false + 60 ∧
    clampEnd (toLocalDt ev.start tz false) (toLocalDt ev.end_ tz true) -
      toLocalDt ev.start tz false = 60 ∧
    toLocalDt ev.start tz false <
      clampEnd (toLocalDt ev.start tz false) (toLocalDt ev.end_ tz true) := by
  rw [clampEnd, if_pos h]
  omega

/-- Witness for `clamp_one_minute` at the occurrence with naive start 02:00
and naive end 01:00 in zone UTC+0. -/
theorem clamp_one_minute_witness :
    toLocalDt (Occ.mk (.naive 7200) (.naive 3600) "" false).end_ 0 true ≤
      toLocalDt (Occ.mk (.naive 7200) (.naive 3600) "" false).start 0 false ∧
    (clampEnd (toLocalDt (Occ.mk (.naive 7200) (.naive 3600) "" false).start 0 false)
        (toLocalDt (Occ.mk (.naive 7200) (.naive 3600) "" false).end_ 0 true) =
      toLocalDt (Occ.mk (.naive 7200) (.naive 3600) "" false).start 0 false + 60 ∧
    clampEnd (toLocalDt (Occ.mk (.naive 7200) (.naive 3600) "" false).start 0 false)
        (toLocalDt (Occ.mk (.naive 7200) (.naive 3600) "" false).end_ 0 true) -
      toLocalDt (Occ.mk (.naive 7200) (.naive 3600) "" false).start 0 false = 60 ∧
    toLocalDt (Occ.mk (.naive 7200) (.naive 3600) "" false).start 0 false <
      clampEnd (toLocalDt (Occ.mk (.naive 7200) (.naive 3600) "" false).start 0 false)
        (toLocalDt (Occ.mk (.naive 7200) (.naive 3600) "" false).end_ 0 true)) :=
  ⟨by decide, clamp_one_minute ⟨.naive 7200, .naive 3600, "", false⟩ 0 (by decide)⟩

/-- Claim C6, counterexample: an all-day event on the single date 20000 is
stored with the ICS-exclusive end date 20001; `_to_local_dt` with
`is_end=True` maps that end date to midnight of day 20002, so the
normalized interval extends into D+2 instead of ending at D+1 00:00. -/
theorem allday_end_cex :
    toLocalDt (.date 20001) (-21600) true = 20002 * 86400 ∧
    (20002 * 86400 : Int) ≠ (20000 + 1) * 86400 := ⟨by decide, by decide⟩

/-- Claim C6, amended: `_to_local_dt` maps an all-day start date D to local
midnight of D and an all-day end date E to local midnight of E + 1.  Hence
an all-day event occupies [D 00:00, D+1 00:00) exactly when its raw end
date equals its start date, while the ICS-conformant exclusive end date
D+1 makes the normalized interval extend to D+2 00:00. -/
theorem allday_normalization (D E tz : Int) :
    toLocalDt (.date D) tz false = D * 86400 ∧
    toLocalDt (.date E) tz true = (E + 1) * 86400 := ⟨rfl, rfl⟩

/-- Claim C7: the suggestion pass scans the filtered blocks in order and
emits at most one suggestion; it is the "Deep work" suggestion built from
the first block whose minutes reach `deep_block` (none if no block
qualifies), and its fields copy that block's start, end and minutes. -/
theorem suggestion_first_match (deepBlock : Int) (blocks : List Block) :
    (suggestLoop deepBlock blocks).length ≤ 1 ∧
    suggestLoop deepBlock blocks =
      ((blocks.find? fun b => decide (deepBlock ≤ b.minutes)).map
        fun b => Suggestion.mk "Deep work" b.start b.end_ b.minutes).toList := by
  induction blocks with
  | nil => exact ⟨by simp [suggestLoop], rfl⟩
  | cons b tl ih =>
    by_cases h : deepBlock ≤ b.minutes
    · refine ⟨?_, ?_⟩ <;>
        simp [suggestLoop, h, List.find?_cons_of_pos]
    · constructor
      · simpa [suggestLoop, h] using ih.1
      · rw [suggestLoop, if_neg h, List.find?_cons_of_neg, ih.2]
        simpa using h

/-- Claim C8: when DTEND is absent the expander defaults the end: a timed
occurrence (naive or aware) ends one hour after its start, and an all-day
occurrence gets the naive datetime 01:00 of its own date, which normalizes
to a one-hour block starting at that day's local midnight. -/
theorem default_end_policy (w i d tz : Int) :
    rawEndOf (.naive w) none = .naive (w + 3600) ∧
    rawEndOf (.aware i) none = .aware (i + 3600) ∧
    rawEndOf (.date d) none = .naive (d * 86400 + 3600) ∧
    toLocalDt (rawEndOf (.date d) none) tz true -
      toLocalDt (.date d) tz false = 3600 := by
  refine ⟨rfl, rfl, rfl, ?_⟩
  simp [rawEndOf, toLocalDt]

/-- Claim C9: at the overlap filter of `_expand_events_for_range`, an
all-day event's dates are converted to naive datetimes and then compared
against the timezone-aware range bounds; that comparison raises
`TypeError`, so on a calendar holding one all-day event (date 20000,
exclusive end date 20001, window 08:00-21:00 of day 20000 in UTC-6) the
expander, and with it `get_free_blocks`, raises instead of returning the
overlapping occurrences. -/
theorem allday_event_raises :
    expandEventsForRange [⟨some (.date 20000), some (.date 20001), "All day"⟩]
      1728050400 1728097200 = .error .typeError ∧
    getFreeBlocks (.ok [⟨some (.date 20000), some (.date 20001), "All day"⟩])
      60 90 8 21 (-21600) 20000 = .error .typeError := ⟨rfl, rfl⟩

/-- The covered set of the empty list. -/
theorem coveredF_nil : coveredF [] = ∅ := rfl

/-- The covered set of a cons. -/
theorem coveredF_cons (q : Int × Int) (tl : List (Int × Int)) :
    coveredF (q :: tl) = Finset.Ico q.1 q.2 ∪ coveredF tl := rfl

/-- Membership in the covered set of an interval list. -/
theorem mem_coveredF {t : Int} : ∀ {l : List (Int × Int)},
    t ∈ coveredF l ↔ ∃ p, p ∈ l ∧ p.1 ≤ t ∧ t < p.2
  | [] => by simp [coveredF_nil]
  | q :: tl => by
    rw [coveredF_cons, Finset.mem_union, Finset.mem_Ico, mem_coveredF]
    constructor
    · rintro (h | ⟨p, hp, hpt⟩)
      · exact ⟨q, by simp, h⟩
      · exact ⟨p, by simp [hp], hpt⟩
    · rintro ⟨p, hp, hpt⟩
      rcases List.mem_cons.mp hp with rfl | hp'
      · exact Or.inl hpt
      · exact Or.inr ⟨p, hp', hpt⟩

/-- The covered set is invariant under permutation. -/
theorem coveredF_perm {l l' : List (Int × Int)} (h : l.Perm l') :
    coveredF l = coveredF l' :=
  Finset.ext fun t => by simp only [mem_coveredF, h.mem_iff]

/-- Splitting an extended interval into the running interval and the merged
one, under the merge-pass preconditions. -/
theorem Ico_union_split {a b s e : Int} (h1 : a ≤ s) (h2 : s ≤ b) :
    Finset.Ico a (max b e) = Finset.Ico a b ∪ Finset.Ico s e := by
  ext t
  simp only [Finset.mem_union, Finset.mem_Ico]
  omega

/-- Characterization of a successful clip. -/
theorem clipInterval_eq_some {s e ws we : Int} {q : Int × Int} :
    clipInterval s e ws we = some q ↔
      max s ws < min e we ∧ q = (max s ws, min e we) := by
  unfold clipInterval
  by_cases h : max s ws < min e we
  · simp [h, eq_comm]
  · simp [h]

/-- A clipped interval is nonempty and lies inside the window. -/
theorem clipInterval_some_bounds {s e ws we : Int} {q : Int × Int}
    (h : clipInterval s e ws we = some q) :
    ws ≤ q.1 ∧ q.1 < q.2 ∧ q.2 ≤ we := by
  rcases clipInterval_eq_some.mp h with ⟨hlt, rfl⟩
  exact ⟨le_max_right s ws, hlt, min_le_right e we⟩

/-- The union of the clipped intervals is the union of the raw intervals
intersected with the window. -/
theorem clipped_covered (raw : List (Int × Int)) (w1 w2 : Int) :
    coveredF (raw.filterMap fun p => clipInterval p.1 p.2 w1 w2) =
      coveredF raw ∩ Finset.Ico w1 w2 := by
  ext t
  simp only [mem_coveredF, Finset.mem_inter, Finset.mem_Ico, List.mem_filterMap,
    clipInterval_eq_some]
  constructor
  · rintro ⟨q, ⟨p, hp, hlt, rfl⟩, h1, h2⟩
    simp only [] at h1 h2
    refine ⟨⟨p, hp, ?_, ?_⟩, ?_, ?_⟩ <;> omega
  · rintro ⟨⟨p, hp, hp1, hp2⟩, hw1, hw2⟩
    exact ⟨(max p.1 w1, min p.2 w2), ⟨p, hp, by omega, rfl⟩, by simp; omega, by simp; omega⟩

/-- The head of a merge-pass result keeps the running interval's start and
can only extend its end. -/
theorem mergeGo_head : ∀ (tl : List (Int × Int)) (c : Int × Int),
    ∃ e2 rest, mergeGo c tl = (c.1, e2) :: rest ∧ c.2 ≤ e2
  | [], c => ⟨c.2, [], by simp [mergeGo], le_refl _⟩
  | q :: tl, c => by
    simp only [mergeGo]
    by_cases h : q.1 ≤ c.2
    · rw [if_pos h]
      obtain ⟨e2, rest, heq, hle⟩ := mergeGo_head tl (c.1, max c.2 q.2)
      exact ⟨e2, rest, heq, le_trans (le_max_left _ _) hle⟩
    · rw [if_neg h]
      exact ⟨c.2, mergeGo q tl, rfl, le_refl _⟩

/-- Every interval produced by the merge pass satisfies any property that is
preserved by extending an interval's end (running-interval update). -/
theorem mergeGo_forall {P : Int × Int → Prop}
    (hP : ∀ a b, P a → P b → P (a.1, max a.2 b.2)) :
    ∀ (tl : List (Int × Int)) (c : Int × Int), P c → (∀ p ∈ tl, P p) →
      ∀ p ∈ mergeGo c tl, P p
  | [], c, hc, _ => by simpa [mergeGo] using hc
  | q :: tl, c, hc, htl => by
    simp only [mergeGo]
    by_cases h : q.1 ≤ c.2
    · rw [if_pos h]
      exact mergeGo_forall hP tl _ (hP c q hc (htl q (by simp)))
        (fun p hp => htl p (by simp [hp]))
    · rw [if_neg h]
      intro p hp
      rcases List.mem_cons.mp hp with rfl | hp'
      · exact hc
      · exact mergeGo_forall hP tl q (htl q (by simp))
          (fun r hr => htl r (by simp [hr])) p hp'

/-- On a start-sorted input, the merge pass produces strictly separated
consecutive intervals. -/
theorem mergeGo_sep : ∀ (tl : List (Int × Int)) (c : Int × Int),
    List.Sorted StartLE (c :: tl) → List.Chain' Sep (mergeGo c tl)
  | [], c, _ => by simp [mergeGo]
  | q :: tl, c, hs => by
    have hs' := List.sorted_cons.mp hs
    simp only [mergeGo]
    by_cases h : q.1 ≤ c.2
    · rw [if_pos h]
      apply mergeGo_sep tl (c.1, max c.2 q.2)
      rcases List.sorted_cons.mp hs'.2 with ⟨hq, htl⟩
      exact List.sorted_cons.mpr ⟨fun p hp => hs'.1 p (List.mem_cons_of_mem q hp), htl⟩
    · rw [if_neg h]
      obtain ⟨e2, rest, heq, _⟩ := mergeGo_head tl q
      rw [heq, List.chain'_cons]
      constructor
      · show c.2 < q.1
        omega
      · rw [← heq]
        exact mergeGo_sep tl q hs'.2

/-- On a start-sorted input, the merge pass preserves the covered set. -/
theorem mergeGo_covered : ∀ (tl : List (Int × Int)) (c : Int × Int),
    List.Sorted StartLE (c :: tl) →
    coveredF (mergeGo c tl) = Finset.Ico c.1 c.2 ∪ coveredF tl
  | [], c, _ => by simp [mergeGo, coveredF_cons, coveredF_nil]
  | q :: tl, c, hs => by
    have hs' := List.sorted_cons.mp hs
    simp only [mergeGo]
    by_cases h : q.1 ≤ c.2
    · rw [if_pos h]
      have hsort : List.Sorted StartLE ((c.1, max c.2 q.2) :: tl) := by
        rcases List.sorted_cons.mp hs'.2 with ⟨hq, htl⟩
        exact List.sorted_cons.mpr ⟨fun p hp => hs'.1 p (List.mem_cons_of_mem q hp), htl⟩
      rw [mergeGo_covered tl _ hsort, coveredF_cons]
      have hcq : c.1 ≤ q.1 := hs'.1 q (by simp)
      rw [show ((c.1, max c.2 q.2) : Int × Int).2 = max c.2 q.2 from rfl]
      rw [show ((c.1, max c.2 q.2) : Int × Int).1 = c.1 from rfl]
      rw [Ico_union_split hcq h, Finset.union_assoc]
    · rw [if_neg h, coveredF_cons, mergeGo_covered tl q hs'.2, coveredF_cons]

/-- The sort of `_merge_intervals` is sorted by start. -/
theorem sortByStart_sorted (l : List (Int × Int)) :
    List.Sorted StartLE (sortByStart l) :=
  List.sorted_insertionSort _ l

/-- The sort of `_merge_intervals` is a permutation of its input. -/
theorem sortByStart_perm (l : List (Int × Int)) : (sortByStart l).Perm l :=
  List.perm_insertionSort _ l

/-- The Busy Set invariant: consecutive merged intervals are strictly
separated. -/
theorem mergeIntervals_sep (l : List (Int × Int)) :
    List.Chain' Sep (mergeIntervals l) := by
  unfold mergeIntervals
  cases hs : sortByStart l with
  | nil => simp
  | cons x xs => exact mergeGo_sep xs x (hs ▸ sortByStart_sorted l)

/-- Merging preserves the covered set. -/
theorem mergeIntervals_covered (l : List (Int × Int)) :
    coveredF (mergeIntervals l) = coveredF l := by
  unfold mergeIntervals
  cases hs : sortByStart l with
  | nil =>
    have hnil : l = [] := ((hs ▸ sortByStart_perm l).symm).eq_nil
    rw [hnil]
  | cons x xs =>
    rw [mergeGo_covered xs x (hs ▸ sortByStart_sorted l), ← coveredF_cons, ← hs]
    exact coveredF_perm (sortByStart_perm l)

/-- Elementwise properties preserved by the running-interval update carry
over from the input intervals to the merged intervals. -/
theorem mergeIntervals_forall {P : Int × Int → Prop}
    (hP : ∀ a b, P a → P b → P (a.1, max a.2 b.2)) (l : List (Int × Int))
    (hl : ∀ p ∈ l, P p) : ∀ p ∈ mergeIntervals l, P p := by
  unfold mergeIntervals
  cases hs : sortByStart l with
  | nil => simp
  | cons x xs =>
    have hmem : ∀ p ∈ x :: xs, P p := fun p hp =>
      hl p ((sortByStart_perm l).mem_iff.mp (hs ▸ hp))
    exact mergeGo_forall hP xs x (hmem x (by simp)) (fun p hp => hmem p (by simp [hp]))

/-- Under strict separation and positivity, the head's end is below every
later start. -/
theorem sep_head_lt : ∀ {tl : List (Int × Int)} {h : Int × Int},
    List.Chain' Sep (h :: tl) → (∀ p ∈ tl, p.1 < p.2) → ∀ p ∈ tl, h.2 < p.1 := by
  intro tl
  induction tl with
  | nil => simp
  | cons q tl ih =>
    intro h hc hpos p hp
    rw [List.chain'_cons] at hc
    have h1 : h.2 < q.1 := hc.1
    rcases List.mem_cons.mp hp with rfl | hp'
    · exact h1
    · have h2 : q.2 < p.1 := ih hc.2 (fun r hr => hpos r (by simp [hr])) p hp'
      have h3 : q.1 < q.2 := hpos q (by simp)
      omega

/-- A separated chain of nonempty intervals is pairwise separated. -/
theorem sep_pairwise : ∀ {l : List (Int × Int)},
    List.Chain' Sep l → (∀ p ∈ l, p.1 < p.2) → List.Pairwise Sep l
  | [], _, _ => List.Pairwise.nil
  | h :: tl, hc, hpos => by
    rw [List.pairwise_cons]
    have hc' := (List.chain'_cons'.mp hc).2
    refine ⟨?_, sep_pairwise hc' (fun p hp => hpos p (by simp [hp]))⟩
    intro p hp
    exact sep_head_lt hc (fun r hr => hpos r (by simp [hr])) p hp

/-- A separated chain of nonempty intervals is sorted by start. -/
theorem chain_sep_startLE : ∀ {l : List (Int × Int)},
    List.Chain' Sep l → (∀ p ∈ l, p.1 < p.2) → List.Chain' StartLE l
  | [], _, _ => List.chain'_nil
  | [a], _, _ => List.chain'_singleton a
  | a :: b :: tl, hc, hpos => by
    rw [List.chain'_cons] at hc ⊢
    have h1 : a.2 < b.1 := hc.1
    have h2 : a.1 < a.2 := hpos a (by simp)
    exact ⟨by show a.1 ≤ b.1; omega,
      chain_sep_startLE hc.2 (fun p hp => hpos p (by simp [hp]))⟩

/-- For a separated list of nonempty intervals, the size of the covered set
is the sum of the interval durations. -/
theorem coveredF_card : ∀ {l : List (Int × Int)},
    List.Chain' Sep l → (∀ p ∈ l, p.1 < p.2) →
    (coveredF l).card = (l.map fun p => (p.2 - p.1).toNat).sum
  | [], _, _ => by simp [coveredF_nil]
  | h :: tl, hc, hpos => by
    rw [coveredF_cons, List.map_cons, List.sum_cons]
    have hdisj : Disjoint (Finset.Ico h.1 h.2) (coveredF tl) := by
      rw [Finset.disjoint_left]
      intro t ht htl
      rw [Finset.mem_Ico] at ht
      rcases mem_coveredF.mp htl with ⟨p, hp, hpt⟩
      have := sep_head_lt hc (fun r hr => hpos r (by simp [hr])) p hp
      omega
    rw [Finset.card_union_of_disjoint hdisj, Int.card_Ico,
      coveredF_card (List.chain'_cons'.mp hc).2 (fun p hp => hpos p (by simp [hp]))]

/-- The cursor never moves backwards: every emitted gap starts at or after
the current cursor. -/
theorem gapsGo_start_lb : ∀ (l : List (Int × Int)) (we cur : Int)
    (g : Int × Int), g ∈ gapsGo we cur l → cur ≤ g.1
  | [], we, cur, g => by
    simp only [gapsGo]
    by_cases h : cur < we
    · rw [if_pos h]
      intro hg
      rcases List.mem_cons.mp hg with rfl | hg'
      · exact le_refl _
      · simp at hg'
    · rw [if_neg h]
      intro hg
      simp at hg
  | q :: tl, we, cur, g => by
    simp only [gapsGo]
    by_cases h : cur < q.1
    · rw [if_pos h]
      intro hg
      rcases List.mem_cons.mp hg with rfl | hg'
      · exact le_refl _
      · exact le_trans (le_max_left _ _) (gapsGo_start_lb tl we _ g hg')
    · rw [if_neg h]
      intro hg
      exact le_trans (le_max_left _ _) (gapsGo_start_lb tl we _ g hg)

/-- Every emitted gap is nonempty and lies between the cursor and the
window end, provided the busy intervals are nonempty and end inside the
window. -/
theorem gapsGo_bounds : ∀ (l : List (Int × Int)) (we cur : Int),
    (∀ p ∈ l, p.1 < p.2 ∧ p.2 ≤ we) →
    ∀ g ∈ gapsGo we cur l, cur ≤ g.1 ∧ g.1 < g.2 ∧ g.2 ≤ we
  | [], we, cur, _ => by
    simp only [gapsGo]
    by_cases h : cur < we
    · rw [if_pos h]
      intro g hg
      rcases List.mem_cons.mp hg with rfl | hg'
      · exact ⟨le_refl _, h, le_refl _⟩
      · simp at hg'
    · rw [if_neg h]
      intro g hg
      simp at hg
  | q :: tl, we, cur, hl => by
    simp only [gapsGo]
    have hq := hl q (by simp)
    by_cases h : cur < q.1
    · rw [if_pos h]
      intro g hg
      rcases List.mem_cons.mp hg with rfl | hg'
      · exact ⟨le_refl _, h, by omega⟩
      · have := gapsGo_bounds tl we (max cur q.2) (fun p hp => hl p (by simp [hp])) g hg'
        exact ⟨le_trans (le_max_left _ _) this.1, this.2⟩
    · rw [if_neg h]
      intro g hg
      have := gapsGo_bounds tl we (max cur q.2) (fun p hp => hl p (by simp [hp])) g hg
      exact ⟨le_trans (le_max_left _ _) this.1, this.2⟩

/-- The emitted gaps are pairwise strictly separated. -/
theorem gapsGo_pairwise : ∀ (l : List (Int × Int)) (we cur : Int),
    (∀ p ∈ l, p.1 < p.2) → List.Pairwise Sep (gapsGo we cur l)
  | [], we, cur, _ => by
    simp only [gapsGo]
    by_cases h : cur < we
    · rw [if_pos h]
      exact List.pairwise_singleton _ _
    · rw [if_neg h]
      exact List.Pairwise.nil
  | q :: tl, we, cur, hl => by
    simp only [gapsGo]
    by_cases h : cur < q.1
    · rw [if_pos h, List.pairwise_cons]
      refine ⟨?_, gapsGo_pairwise tl we _ (fun p hp => hl p (by simp [hp]))⟩
      intro g hg
      have h1 := gapsGo_start_lb tl we (max cur q.2) g hg
      have h2 : q.1 < q.2 := hl q (by simp)
      show q.1 < g.1
      omega
    · rw [if_neg h]
      exact gapsGo_pairwise tl we _ (fun p hp => hl p (by simp [hp]))

/-- The covered set of the emitted gaps is exactly the part of the window
from the cursor on that is not busy. -/
theorem gapsGo_covered : ∀ (l : List (Int × Int)) (we cur : Int),
    List.Chain' Sep l →
    (∀ p ∈ l, p.1 < p.2 ∧ p.2 ≤ we) →
    (∀ p ∈ l, cur ≤ p.1) →
    coveredF (gapsGo we cur l) = Finset.Ico cur we \ coveredF l
  | [], we, cur, _, _, _ => by
    simp only [gapsGo, coveredF_nil, Finset.sdiff_empty]
    by_cases h : cur < we
    · rw [if_pos h, coveredF_cons, coveredF_nil, Finset.union_empty]
    · rw [if_neg h, coveredF_nil]
      exact (Finset.Ico_eq_empty h).symm
  | q :: tl, we, cur, hchain, hbnd, hlb => by
    have hq := hbnd q (by simp)
    have hcq : cur ≤ q.1 := hlb q (by simp)
    have hchain' : List.Chain' Sep tl := (List.chain'_cons'.mp hchain).2
    have hlb' : ∀ p ∈ tl, q.2 ≤ p.1 := fun p hp =>
      le_of_lt (sep_head_lt hchain (fun r hr => (hbnd r (by simp [hr])).1) p hp)
    have hmax : max cur q.2 = q.2 := max_eq_right (by omega)
    have IH := gapsGo_covered tl we q.2 hchain' (fun p hp => hbnd p (by simp [hp])) hlb'
    have hTsub : ∀ x ∈ coveredF tl, q.2 ≤ x ∧ x < we := by
      intro x hx
      rcases mem_coveredF.mp hx with ⟨p, hp, h1, h2⟩
      have h3 := hlb' p hp
      have h4 := (hbnd p (by simp [hp])).2
      omega
    simp only [gapsGo, hmax]
    by_cases h : cur < q.1
    · rw [if_pos h, coveredF_cons, IH, coveredF_cons]
      ext t
      by_cases ht : t ∈ coveredF tl
      · have h5 := hTsub t ht
        simp only [Finset.mem_union, Finset.mem_sdiff, Finset.mem_Ico, ht,
          not_true, not_false_eq_true, and_true, true_and, and_false, false_and, or_true, true_or, or_false, false_or, iff_false, iff_true]
        omega
      · simp only [Finset.mem_union, Finset.mem_sdiff, Finset.mem_Ico, ht,
          not_true, not_false_eq_true, and_true, true_and, and_false, false_and, or_true, true_or, or_false, false_or, iff_false, iff_true]
        omega
    · rw [if_neg h, IH, coveredF_cons]
      have hcurq : cur = q.1 := by omega
      ext t
      by_cases ht : t ∈ coveredF tl
      · have h5 := hTsub t ht
        simp only [Finset.mem_sdiff, Finset.mem_union, Finset.mem_Ico, ht,
          not_true, not_false_eq_true, and_true, true_and, and_false, false_and, or_true, true_or, or_false, false_or, iff_false, iff_true]
      · simp only [Finset.mem_sdiff, Finset.mem_union, Finset.mem_Ico, ht,
          not_true, not_false_eq_true, and_true, true_and, and_false, false_and, or_true, true_or, or_false, false_or, iff_false, iff_true, hcurq]
        omega

/-- The kept blocks, viewed as intervals, form a sublist of the gaps: the
`min_block` filter only removes gaps. -/
theorem blocksOf_sublist (free : List (Int × Int)) (m : Int) :
    List.Sublist ((blocksOf free m).map fun b => (b.start, b.end_)) free := by
  induction free with
  | nil => simp [blocksOf]
  | cons p tl ih =>
    rw [blocksOf, List.filterMap_cons]
    by_cases h : m ≤ (p.2 - p.1) / 60
    · rw [if_pos h, List.map_cons]
      exact List.Sublist.cons₂ p ih
    · rw [if_neg h]
      exact List.Sublist.cons p ih

/-- Every kept block comes from a gap, with the floor minute count, and
meets the `min_block` threshold. -/
theorem blocksOf_mem {free : List (Int × Int)} {m : Int} {b : Block}
    (h : b ∈ blocksOf free m) :
    ∃ p, p ∈ free ∧ b = ⟨p.1, p.2, (p.2 - p.1) / 60⟩ ∧ m ≤ (p.2 - p.1) / 60 := by
  rcases List.mem_filterMap.mp h with ⟨p, hp, heq⟩
  by_cases hc : m ≤ (p.2 - p.1) / 60
  · rw [if_pos hc] at heq
    injection heq with heq'
    exact ⟨p, hp, heq'.symm, hc⟩
  · rw [if_neg hc] at heq
    exact absurd heq (by simp)

/-- Every emitted suggestion copies the fields of a qualifying block. -/
theorem suggestLoop_mem : ∀ {blocks : List Block} {d : Int} {s : Suggestion},
    s ∈ suggestLoop d blocks →
    ∃ b, b ∈ blocks ∧ s = ⟨"Deep work", b.start, b.end_, b.minutes⟩ ∧
      d ≤ b.minutes := by
  intro blocks
  induction blocks with
  | nil =>
    intro d s h
    simp [suggestLoop] at h
  | cons b tl ih =>
    intro d s h
    rw [suggestLoop] at h
    by_cases hc : d ≤ b.minutes
    · rw [if_pos hc] at h
      rcases List.mem_singleton.mp h with rfl
      exact ⟨b, by simp, rfl, hc⟩
    · rw [if_neg hc] at h
      rcases ih h with ⟨b2, hb2, heq, hd⟩
      exact ⟨b2, by simp [hb2], heq, hd⟩

/-- Claim C3: merging the window-clipped input intervals yields a Busy Set
that is sorted by start, whose consecutive intervals are strictly separated
(overlap and adjacency merged away), whose covered set equals the union of
the inputs intersected with the window, and whose total duration equals the
size of that union. -/
theorem merge_correctness (raw : List (Int × Int)) (w1 w2 : Int) :
    List.Chain' StartLE (mergeIntervals (raw.filterMap fun p => clipInterval p.1 p.2 w1 w2)) ∧
    List.Chain' Sep (mergeIntervals (raw.filterMap fun p => clipInterval p.1 p.2 w1 w2)) ∧
    coveredF (mergeIntervals (raw.filterMap fun p => clipInterval p.1 p.2 w1 w2)) =
      coveredF raw ∩ Finset.Ico w1 w2 ∧
    ((mergeIntervals (raw.filterMap fun p => clipInterval p.1 p.2 w1 w2)).map
      fun p => (p.2 - p.1).toNat).sum = (coveredF raw ∩ Finset.Ico w1 w2).card := by
  have hpos : ∀ p ∈ (raw.filterMap fun p => clipInterval p.1 p.2 w1 w2), p.1 < p.2 := by
    intro p hp
    rcases List.mem_filterMap.mp hp with ⟨r, hr, hcl⟩
    exact (clipInterval_some_bounds hcl).2.1
  have hposM : ∀ p ∈ mergeIntervals (raw.filterMap fun p => clipInterval p.1 p.2 w1 w2),
      p.1 < p.2 :=
    mergeIntervals_forall (P := fun p => p.1 < p.2)
      (fun a b ha _ => lt_of_lt_of_le ha (le_max_left _ _)) _ hpos
  have hsep := mergeIntervals_sep (raw.filterMap fun p => clipInterval p.1 p.2 w1 w2)
  have hcov : coveredF (mergeIntervals (raw.filterMap fun p => clipInterval p.1 p.2 w1 w2)) =
      coveredF raw ∩ Finset.Ico w1 w2 := by
    rw [mergeIntervals_covered, clipped_covered]
  refine ⟨chain_sep_startLE hsep hposM, hsep, hcov, ?_⟩
  rw [← hcov, coveredF_card hsep hposM]

/-- Claim C4: for a merged Busy Set lying inside the window, every instant
of the window is in exactly one of the Busy Set and the emitted free gaps,
and the `min_block` filter only removes gaps (the kept blocks are a sublist
of the gaps), never adding busy time. -/
theorem free_gap_partition (busy : List (Int × Int)) (w1 w2 t minB : Int)
    (hsep : List.Chain' Sep busy)
    (hbusy : ∀ p ∈ busy, w1 ≤ p.1 ∧ p.1 < p.2 ∧ p.2 ≤ w2)
    (ht : w1 ≤ t ∧ t < w2) :
    (t ∈ coveredF busy ↔ t ∉ coveredF (gapsGo w2 w1 busy)) ∧
    List.Sublist ((blocksOf (gapsGo w2 w1 busy) minB).map fun b => (b.start, b.end_))
      (gapsGo w2 w1 busy) := by
  refine ⟨?_, blocksOf_sublist _ _⟩
  rw [gapsGo_covered busy w2 w1 hsep (fun p hp => ⟨(hbusy p hp).2.1, (hbusy p hp).2.2⟩)
    (fun p hp => (hbusy p hp).1)]
  simp only [Finset.mem_sdiff, Finset.mem_Ico]
  constructor
  · intro hb hcon
    exact hcon.2 hb
  · intro hng
    by_contra hnb
    exact hng ⟨⟨ht.1, ht.2⟩, hnb⟩

/-- Witness for `free_gap_partition`: window [0, 300), one busy interval
[100, 200), instant 150, threshold 1. -/
theorem free_gap_partition_witness :
    ((150 : Int) ∈ coveredF [((100 : Int), (200 : Int))] ↔
      (150 : Int) ∉ coveredF (gapsGo 300 0 [((100 : Int), (200 : Int))])) ∧
    List.Sublist ((blocksOf (gapsGo 300 0 [((100 : Int), (200 : Int))]) 1).map
      fun b => (b.start, b.end_)) (gapsGo 300 0 [((100 : Int), (200 : Int))]) :=
  free_gap_partition [(100, 200)] 0 300 150 1 (by simp) (by decide) (by decide)

/-- Claim C10: whenever `get_free_blocks` returns, every block lies inside
the working-hours window of the current day (as naive local wall clock),
blocks are in strictly increasing chronological order and pairwise
disjoint, each block carries the floor of its duration in whole minutes
with at least `min_block` of them, and every suggestion copies a block and
additionally meets `deep_block`. -/
theorem result_invariants (loaded : Except PyErr (List RawEvent))
    (minBlock deepBlock dayStartHour dayEndHour tz today : Int)
    (blocks : List Block) (suggs : List Suggestion)
    (h : getFreeBlocks loaded minBlock deepBlock dayStartHour dayEndHour tz today =
      .ok (blocks, suggs)) :
    (∀ b ∈ blocks,
      today * 86400 + dayStartHour * 3600 ≤ b.start ∧ b.start < b.end_ ∧
      b.end_ ≤ today * 86400 + dayEndHour * 3600 ∧
      b.minutes = (b.end_ - b.start) / 60 ∧ minBlock ≤ b.minutes) ∧
    List.Chain' (fun a b => a.end_ < b.start) blocks ∧
    (∀ s ∈ suggs, s.type = "Deep work" ∧
      today * 86400 + dayStartHour * 3600 ≤ s.start ∧ s.start < s.end_ ∧
      s.end_ ≤ today * 86400 + dayEndHour * 3600 ∧
      s.minutes = (s.end_ - s.start) / 60 ∧ minBlock ≤ s.minutes ∧
      deepBlock ≤ s.minutes) := by
  cases loaded with
  | error e => exact absurd h (by simp [getFreeBlocks])
  | ok comps =>
    rw [getFreeBlocks] at h
    simp only [getFreeBlocksOk] at h
    cases hE : expandEventsForRange comps (today * 86400 + dayStartHour * 3600 - tz)
        (today * 86400 + dayEndHour * 3600 - tz) with
    | error e =>
      rw [hE] at h
      exact absurd h (by simp)
    | ok occs =>
      rw [hE] at h
      simp only [Except.ok.injEq, Prod.mk.injEq] at h
      obtain ⟨hb, hs⟩ := h
      subst hb
      subst hs
      have hbusy0 : ∀ p ∈ busyOf occs tz (today * 86400 + dayStartHour * 3600)
          (today * 86400 + dayEndHour * 3600),
          today * 86400 + dayStartHour * 3600 ≤ p.1 ∧ p.1 < p.2 ∧
            p.2 ≤ today * 86400 + dayEndHour * 3600 := by
        intro p hp
        rcases List.mem_filterMap.mp hp with ⟨ev, hev, heq⟩
        exact clipInterval_some_bounds heq
      have hbusyM : ∀ p ∈ mergeIntervals (busyOf occs tz
          (today * 86400 + dayStartHour * 3600) (today * 86400 + dayEndHour * 3600)),
          today * 86400 + dayStartHour * 3600 ≤ p.1 ∧ p.1 < p.2 ∧
            p.2 ≤ today * 86400 + dayEndHour * 3600 :=
        mergeIntervals_forall
          (P := fun p => today * 86400 + dayStartHour * 3600 ≤ p.1 ∧ p.1 < p.2 ∧
            p.2 ≤ today * 86400 + dayEndHour * 3600)
          (fun a b ha hb => ⟨ha.1, lt_of_lt_of_le ha.2.1 (le_max_left _ _),
            max_le ha.2.2 hb.2.2⟩) _ hbusy0
      have hgaps := gapsGo_bounds
        (mergeIntervals (busyOf occs tz (today * 86400 + dayStartHour * 3600)
          (today * 86400 + dayEndHour * 3600)))
        (today * 86400 + dayEndHour * 3600) (today * 86400 + dayStartHour * 3600)
        (fun p hp => ⟨(hbusyM p hp).2.1, (hbusyM p hp).2.2⟩)
      have hblocks : ∀ b ∈ blocksOf (gapsGo (today * 86400 + dayEndHour * 3600)
          (today * 86400 + dayStartHour * 3600)
          (mergeIntervals (busyOf occs tz (today * 86400 + dayStartHour * 3600)
            (today * 86400 + dayEndHour * 3600)))) minBlock,
          today * 86400 + dayStartHour * 3600 ≤ b.start ∧ b.start < b.end_ ∧
          b.end_ ≤ today * 86400 + dayEndHour * 3600 ∧
          b.minutes = (b.end_ - b.start) / 60 ∧ minBlock ≤ b.minutes := by
        intro b hbm
        rcases blocksOf_mem hbm with ⟨p, hp, rfl, hm⟩
        have hg := hgaps p hp
        exact ⟨hg.1, hg.2.1, hg.2.2, rfl, hm⟩
      refine ⟨hblocks, ?_, ?_⟩
      · have hpw : List.Pairwise Sep (gapsGo (today * 86400 + dayEndHour * 3600)
            (today * 86400 + dayStartHour * 3600)
            (mergeIntervals (busyOf occs tz (today * 86400 + dayStartHour * 3600)
              (today * 86400 + dayEndHour * 3600)))) :=
          gapsGo_pairwise _ _ _ (fun p hp => (hbusyM p hp).2.1)
        have hpw2 := hpw.sublist (blocksOf_sublist _ minBlock)
        rw [List.pairwise_map] at hpw2
        exact hpw2.chain'
      · intro s hsm
        rcases suggestLoop_mem hsm with ⟨b, hbmem, rfl, hd⟩
        have hbf := hblocks b hbmem
        exact ⟨rfl, hbf.1, hbf.2.1, hbf.2.2.1, hbf.2.2.2.1, hbf.2.2.2.2, hd⟩

/-- Witness for `result_invariants`: the empty calendar on day 20000 in
zone UTC-6 with thresholds 60/90 yields the whole window as one block and
one suggestion, and they satisfy the invariants. -/
theorem result_invariants_witness :
    (∀ b ∈ ([⟨1728028800, 1728075600, 780⟩] : List Block),
      20000 * 86400 + 8 * 3600 ≤ b.start ∧ b.start < b.end_ ∧
      b.end_ ≤ 20000 * 86400 + 21 * 3600 ∧
      b.minutes = (b.end_ - b.start) / 60 ∧ (60 : Int) ≤ b.minutes) ∧
    List.Chain' (fun a b => a.end_ < b.start)
      ([⟨1728028800, 1728075600, 780⟩] : List Block) ∧
    (∀ s ∈ ([⟨"Deep work", 1728028800, 1728075600, 780⟩] : List Suggestion),
      s.type = "Deep work" ∧
      20000 * 86400 + 8 * 3600 ≤ s.start ∧ s.start < s.end_ ∧
      s.end_ ≤ 20000 * 86400 + 21 * 3600 ∧
      s.minutes = (s.end_ - s.start) / 60 ∧ (60 : Int) ≤ s.minutes ∧
      (90 : Int) ≤ s.minutes) :=
  result_invariants (.ok []) 60 90 8 21 (-21600) 20000
    [⟨1728028800, 1728075600, 780⟩] [⟨"Deep work", 1728028800, 1728075600, 780⟩] rfl

end MorningBrief
